import Mathlib

/-!
Verification development for the versioned key-value engine of the
blobstash repository (`vkv/vkv.go`).

The ordered key-value backend (github.com/cznic/kv: `Get`, `Set`,
`Seek` + `Next` in lexicographic byte order) is modelled as a list of
(key, value) entries kept sorted strictly ascending by `cmpBytes`
(the order of Go `bytes.Compare`).  `Seek` positions a cursor at the
first entry whose key is greater than or equal to the target, and the
cursor then walks the remaining entries in order, which for the sorted
list model is the suffix starting at that entry.

Byte strings are lists of naturals (each entry written by the code is a
genuine byte < 256).  Go `int` is 64-bit and is modelled as `Int`;
`uint32(x)` is `x` modulo `2^32` on the low bits, i.e. `Int.emod x (2^32)`.

Backend `Get`/`Set` calls can fail with an I/O error in Go; the model
threads explicit failure predicates (`fg` for failing gets, `fs` for
failing sets), and a failed operation leaves the store unchanged.
-/

namespace vkv

/-- A byte string (Go `[]byte` / `string`): a list of byte values. -/
abbrev Bytes := List Nat

/-- Lexicographic byte-string comparison, as Go `bytes.Compare`:
element-wise numeric comparison, a proper prefix sorts first. -/
def cmpBytes : Bytes → Bytes → Ordering
  | [], [] => .eq
  | [], _ :: _ => .lt
  | _ :: _, [] => .gt
  | a :: as, b :: bs => if a < b then .lt else if b < a then .gt else cmpBytes as bs

/-- The ordered KV backend state: entries sorted strictly ascending by key. -/
abbrev Store := List (Bytes × Bytes)

/-- Backend point lookup (`db.Get`): `none` models Go's `nil` result for a
missing key. -/
def sget : Store → Bytes → Option Bytes
  | [], _ => none
  | (k', v') :: rest, k => if k = k' then some v' else sget rest k

/-- Backend write (`db.Set`): insert or replace, keeping the list sorted. -/
def sset : Store → Bytes → Bytes → Store
  | [], k, v => [(k, v)]
  | (k', v') :: rest, k, v =>
    match cmpBytes k k' with
    | .lt => (k, v) :: (k', v') :: rest
    | .eq => (k, v) :: rest
    | .gt => (k', v') :: sset rest k v

/-- Backend `Seek`: the cursor positioned at the first entry whose key is
not below the target; the remaining suffix is what `Next` will yield. -/
def seek : Store → Bytes → Store
  | [], _ => []
  | e :: rest, k => if cmpBytes e.1 k = .lt then seek rest k else e :: rest

/-- The `d` little-endian base-256 digits of `n` (`binary.LittleEndian`). -/
def toLEDigits : Nat → Nat → List Nat
  | 0, _ => []
  | d + 1, n => n % 256 :: toLEDigits d (n / 256)

/-- Model of `binary.LittleEndian.PutUint32`: the 4 LE digits of `n mod 2^32`. -/
def toLE32 (n : Nat) : Bytes := toLEDigits 4 n

/-- Numeric value of little-endian digits. -/
def fromLE : List Nat → Nat
  | [] => 0
  | x :: xs => x + 256 * fromLE xs

/-- Model of `binary.LittleEndian.Uint32`: the value of the first 4 bytes. -/
def leU32 (b : Bytes) : Nat := fromLE (b.take 4)

/-- The `d` big-endian base-256 digits of `n`, most significant first
(`binary.BigEndian`); high bits above `256^d` are dropped. -/
def toBEDigits : Nat → Nat → List Nat
  | 0, _ => []
  | d + 1, n => n / 256 ^ d % 256 :: toBEDigits d (n % 256 ^ d)

/-- Model of `binary.BigEndian.PutUint32`: the 4 BE digits of `n mod 2^32`. -/
def toBE32 (n : Nat) : Bytes := toBEDigits 4 n

/-- Model of `binary.BigEndian.Uint32` on a 4-byte slice. -/
def fromBE (b : Bytes) : Nat := b.foldl (fun acc x => acc * 256 + x) 0

/-- Go `uint32(v)` applied to a 64-bit `int v`: the low 32 bits,
which for Euclidean `%` is `(v % 2^32).toNat`. -/
def u32I (v : Int) : Nat := (v % (2 ^ 32 : Int)).toNat

/-! Namespace tags for raw keys (the `const` block of vkv.go). -/

def Empty : Nat := 0

def Meta : Nat := 1

def KvKeyIndex : Nat := 2

def KvItem : Nat := 3

def KvVersionCnt : Nat := 4

def KvVersionMin : Nat := 5

def KvVersionMax : Nat := 6

/-- Model of `encodeMeta(keyByte, key)`: prepend the namespace byte. -/
def encodeMeta (keyByte : Nat) (key : Bytes) : Bytes := keyByte :: key

/-- The raw item key for a user key and an (already truncated) version
value `v < 2^32`: tag `KvItem`, 4-byte LE key length, key bytes,
4-byte BE version. -/
def itemKeyRaw (key : Bytes) (v : Nat) : Bytes :=
  KvItem :: toLE32 key.length ++ key ++ toBE32 v

/-- Model of `encodeKey(key, index)` of vkv.go: the index (a 64-bit `int`) passes
through `uint32(index)` before the 4-byte big-endian encoding. -/
def encodeKey (key : Bytes) (index : Int) : Bytes := itemKeyRaw key (u32I index)

/-- Model of `decodeKey(key)`: read the LE key length at bytes 1..4, the member
at bytes 5..5+len, and the BE version from the last 4 bytes. -/
def decodeKey (key : Bytes) : Bytes × Int :=
  ((key.drop 5).take (leU32 (key.drop 1)), (fromBE (key.drop (key.length - 4)) : Int))

/-- The `KeyValue` record returned by the engine. -/
structure KeyValue where
  Key : Bytes
  Value : Bytes
  Version : Int
deriving DecidableEq, Repr

/-- Model of `getUint32`: a missing key (or `nil` data) reads as 0. -/
def getUint32 (db : Store) (key : Bytes) : Nat :=
  match sget db key with
  | none => 0
  | some data => leU32 data

/-- Model of `putUint32`: store the 4-byte LE encoding of the value. -/
def putUint32 (db : Store) (key : Bytes) (value : Nat) : Store :=
  sset db key (toLE32 value)

/-- Model of `incrUint32`: read-modify-write; `toLE32` performs the `uint32` wrap. -/
def incrUint32 (db : Store) (key : Bytes) (step : Nat) : Store :=
  putUint32 db key (getUint32 db key + step)

/-- Model of `VersionCnt`: the version counter lives under `Meta ‖ KvVersionCnt ‖ key`. -/
def VersionCnt (db : Store) (key : Bytes) : Nat :=
  getUint32 db (encodeMeta Meta (encodeMeta KvVersionCnt key))

/-- Tail of `Put` from the item write on: write the item at
`encodeKey(key, version)`, then write the key-existence marker
`KvKeyIndex ‖ key` with an empty value.  `fs` injects set failures;
a failure returns the store as mutated so far and no `KeyValue`. -/
def putItemStep (fs : Bytes → Bool) (key value : Bytes) (version : Int) (db : Store) :
    Store × Option KeyValue :=
  if fs (encodeKey key version) then (db, none)
  else
    let db := sset db (encodeKey key version) value
    if fs (encodeMeta KvKeyIndex key) then (db, none)
    else (sset db (encodeMeta KvKeyIndex key) [], some ⟨key, value, version⟩)

/-- Middle of `Put`: probe the item (`cval`), and if it is absent run
`incrUint32` on the version counter (a get followed by a set) before
the item write. -/
def putCntStep (fg fs : Bytes → Bool) (key value : Bytes) (version : Int) (db : Store) :
    Store × Option KeyValue :=
  if fg (encodeKey key version) then (db, none)
  else
    let cval := sget db (encodeKey key version)
    if cval = none then
      if fg (encodeMeta Meta (encodeMeta KvVersionCnt key)) then (db, none)
      else if fs (encodeMeta Meta (encodeMeta KvVersionCnt key)) then (db, none)
      else putItemStep fs key value version
        (incrUint32 db (encodeMeta Meta (encodeMeta KvVersionCnt key)) 1)
    else putItemStep fs key value version db

/-- Model of `Put(key, value, version)` of vkv.go with failure injection.
`version == -1` is replaced by the current timestamp (`now`).  The
min/max counters are read, updated when the condition of the source
holds, and each backend operation can fail, returning early with the
store as mutated so far. -/
def PutF (fg fs : Bytes → Bool) (db : Store) (key value : Bytes) (version now : Int) :
    Store × Option KeyValue :=
  let version := if version = -1 then now else version
  if fg (encodeMeta KvVersionMin key) then (db, none)
  else
    let cmin := getUint32 db (encodeMeta KvVersionMin key)
    if fg (encodeMeta KvVersionMax key) then (db, none)
    else
      let cmax := getUint32 db (encodeMeta KvVersionMax key)
      if cmin = 0 ∧ cmax = 0 ∧ fg (encodeMeta Meta (encodeMeta KvVersionCnt key)) then
        (db, none)
      else
        let llen : Int := if cmin = 0 ∧ cmax = 0 then (VersionCnt db key : Int) else -1
        if (llen = 0 ∨ (cmin : Int) > version) ∧ fs (encodeMeta KvVersionMin key) then
          (db, none)
        else
          let db := if llen = 0 ∨ (cmin : Int) > version then
              putUint32 db (encodeMeta KvVersionMin key) (u32I version) else db
          if (cmax = 0 ∨ (cmax : Int) < version) ∧ fs (encodeMeta KvVersionMax key) then
            (db, none)
          else
            let db := if cmax = 0 ∨ (cmax : Int) < version then
                putUint32 db (encodeMeta KvVersionMax key) (u32I version) else db
            putCntStep fg fs key value version db

/-- The always-succeeding backend. -/
def noFail : Bytes → Bool := fun _ => false

/-- Model of `Put` against a backend with no I/O failures. -/
def Put (db : Store) (key value : Bytes) (version now : Int) : Store × Option KeyValue :=
  PutF noFail noFail db key value version now

/-- Model of `Get(key, version)` of vkv.go with failure injection on backend gets.
`version == -1` resolves to the stored max counter; the value is the
point read of the item key, with Go's `string(nil) = ""` for a missing
entry.  `none` models an error return. -/
def GetF (fg : Bytes → Bool) (db : Store) (key : Bytes) (version : Int) : Option KeyValue :=
  if version = -1 then
    if fg (encodeMeta KvVersionMax key) then none
    else
      let v : Int := (getUint32 db (encodeMeta KvVersionMax key) : Int)
      if fg (encodeKey key v) then none
      else some ⟨key, (sget db (encodeKey key v)).getD [], v⟩
  else
    if fg (encodeKey key version) then none
    else some ⟨key, (sget db (encodeKey key version)).getD [], version⟩

/-- The scan loop of `Versions`: stop at the first key above `endBytes`
or once `i > limit` for a nonzero limit; emit `(value, decoded version)`
with an empty `Key` field, as the source does. -/
def versionsLoop (endBytes : Bytes) (limit : Int) : Store → Int → List KeyValue
  | [], _ => []
  | (k, v) :: rest, i =>
    if cmpBytes k endBytes = .gt ∨ (limit ≠ 0 ∧ i > limit) then []
    else ⟨[], v, (decodeKey k).2⟩ :: versionsLoop endBytes limit rest (i + 1)

/-- Model of `Versions(key, start, end, limit)`: seek to `encodeKey(key, start)`
and walk forward. -/
def Versions (db : Store) (key : Bytes) (start end_ limit : Int) : List KeyValue :=
  versionsLoop (encodeKey key end_) limit (seek db (encodeKey key start)) 0

/-- The scan loop of `Keys`: emit the raw key minus its namespace byte. -/
def keysLoop (endBytes : Bytes) (limit : Int) : Store → Int → List Bytes
  | [], _ => []
  | (k, _) :: rest, i =>
    if cmpBytes k endBytes = .gt ∨ (limit ≠ 0 ∧ i > limit) then []
    else k.drop 1 :: keysLoop endBytes limit rest (i + 1)

/-- Model of `Keys(start, end, limit)`: scan the `KvKeyIndex` namespace. -/
def Keys (db : Store) (start end_ : Bytes) (limit : Int) : List Bytes :=
  keysLoop (encodeMeta KvKeyIndex end_) limit (seek db (encodeMeta KvKeyIndex start)) 0

/-- One `Put` call recorded in a trace (with the timestamp that
`time.Now().UTC().UnixNano()` would return if `version = -1`). -/
structure Op where
  key : Bytes
  value : Bytes
  version : Int
  now : Int

/-- The store produced by a sequence of successful `Put`s on a fresh db. -/
def applyTrace (ops : List Op) : Store :=
  ops.foldl (fun db o => (Put db o.key o.value o.version o.now).1) []

/-- Strict ascending key order between store entries. -/
def entLt (a b : Bytes × Bytes) : Prop := cmpBytes a.1 b.1 = .lt

/-- Whether `r` lies in the closed scan range `[lo, hi]`. -/
def inRangeB (lo hi r : Bytes) : Bool :=
  decide (cmpBytes lo r ≠ .gt) && decide (cmpBytes r hi ≠ .gt)

/-- The leading part of an item key: tag, LE length, user key. -/
def itemPre (k : Bytes) : Bytes := KvItem :: toLE32 k.length ++ k

/-- The five raw-key families ever written by `Put`. -/
def KeyShape (r : Bytes) : Prop :=
  (∃ k, r = encodeMeta Meta (encodeMeta KvVersionCnt k)) ∨
  (∃ k, r = encodeMeta KvKeyIndex k) ∨
  (∃ k v, v < 2 ^ 32 ∧ k.length < 2 ^ 32 ∧ r = itemKeyRaw k v) ∨
  (∃ k, r = encodeMeta KvVersionMin k) ∨
  (∃ k, r = encodeMeta KvVersionMax k)

/-- Well-formed store: sorted, and every raw key has one of the written shapes. -/
def WF (db : Store) : Prop :=
  List.Pairwise entLt db ∧ ∀ e ∈ db, KeyShape e.1

/-- Statement that `db3` agrees with `db` except possibly at the three per-key counter
entries of `key`, preserves sortedness, and adds no other entries. -/
def MetaTouch (key : Bytes) (db db3 : Store) : Prop :=
  (∀ r, r ≠ encodeMeta KvVersionMin key → r ≠ encodeMeta KvVersionMax key →
      r ≠ encodeMeta Meta (encodeMeta KvVersionCnt key) → sget db3 r = sget db r) ∧
  (List.Pairwise entLt db → List.Pairwise entLt db3) ∧
  (∀ e ∈ db3, e ∈ db ∨ e.1 = encodeMeta KvVersionMin key ∨
      e.1 = encodeMeta KvVersionMax key ∨ e.1 = encodeMeta Meta (encodeMeta KvVersionCnt key))

/-- No trace of the per-key families of an unwritten key is present. -/
def NotWritten (db : Store) (ks : List Bytes) : Prop :=
  ∀ k', k' ∉ ks →
    sget db (encodeMeta KvVersionMin k') = none ∧
    sget db (encodeMeta KvVersionMax k') = none ∧
    sget db (encodeMeta Meta (encodeMeta KvVersionCnt k')) = none ∧
    sget db (encodeMeta KvKeyIndex k') = none ∧
    ∀ v : Nat, sget db (itemKeyRaw k' v) = none

/-- A trace of `Put`s starting from an arbitrary store. -/
def runTrace (ops : List Op) (db : Store) : Store :=
  ops.foldl (fun db o => (Put db o.key o.value o.version o.now).1) db

/-- Decidable test: `r` is the raw item key of user key `k` at some version. -/
def isItemOf (k r : Bytes) : Bool :=
  decide (r.length = k.length + 9) && decide (r.take (k.length + 5) = itemPre k)

end vkv

namespace vkv

/-! ### Order properties of `cmpBytes` -/

theorem cmpBytes_self : ∀ a : Bytes, cmpBytes a a = .eq := by
  intro a
  induction a with
  | nil => rfl
  | cons x xs ih => simp [cmpBytes, ih]

theorem cmpBytes_eq_iff : ∀ a b : Bytes, cmpBytes a b = .eq ↔ a = b := by
  intro a
  induction a with
  | nil => intro b; cases b <;> simp [cmpBytes]
  | cons x xs ih =>
    intro b
    cases b with
    | nil => simp [cmpBytes]
    | cons y ys =>
      simp only [cmpBytes]
      by_cases h1 : x < y
      · simp only [if_pos h1, List.cons.injEq]
        constructor
        · intro h; cases h
        · rintro ⟨rfl, -⟩; exact absurd h1 (lt_irrefl _)
      · by_cases h2 : y < x
        · simp only [if_neg h1, if_pos h2, List.cons.injEq]
          constructor
          · intro h; cases h
          · rintro ⟨rfl, -⟩; exact absurd h2 (lt_irrefl _)
        · have hxy : x = y := Nat.le_antisymm (Nat.not_lt.mp h2) (Nat.not_lt.mp h1)
          simp [if_neg h1, if_neg h2, ih, hxy]

theorem cmpBytes_swap : ∀ a b : Bytes, cmpBytes b a = (cmpBytes a b).swap := by
  intro a
  induction a with
  | nil => intro b; cases b <;> rfl
  | cons x xs ih =>
    intro b
    cases b with
    | nil => rfl
    | cons y ys =>
      simp only [cmpBytes]
      by_cases h1 : x < y
      · simp [if_pos h1, if_neg (Nat.lt_asymm h1), Ordering.swap]
      · by_cases h2 : y < x
        · simp [if_neg h1, if_pos h2, Ordering.swap]
        · simp [if_neg h1, if_neg h2, ih]

theorem cmpBytes_lt_trans :
    ∀ a b c : Bytes, cmpBytes a b = .lt → cmpBytes b c = .lt → cmpBytes a c = .lt := by
  intro a
  induction a with
  | nil =>
    intro b c hab hbc
    cases c with
    | nil =>
      cases b with
      | nil => cases hab
      | cons y ys => cases hbc
    | cons z zs => rfl
  | cons x xs ih =>
    intro b c hab hbc
    cases b with
    | nil => cases hab
    | cons y ys =>
      cases c with
      | nil => cases hbc
      | cons z zs =>
        simp only [cmpBytes] at hab hbc ⊢
        rcases Nat.lt_trichotomy x y with hxy | rfl | hyx
        · rcases Nat.lt_trichotomy y z with hyz | rfl | hzy
          · rw [if_pos (Nat.lt_trans hxy hyz)]
          · rw [if_pos hxy]
          · rw [if_neg (Nat.lt_asymm hzy), if_pos hzy] at hbc; cases hbc
        · rw [if_neg (lt_irrefl x), if_neg (lt_irrefl x)] at hab
          rcases Nat.lt_trichotomy x z with hxz | rfl | hzx
          · rw [if_pos hxz]
          · rw [if_neg (lt_irrefl x), if_neg (lt_irrefl x)] at hbc ⊢
            exact ih ys zs hab hbc
          · rw [if_neg (Nat.lt_asymm hzx), if_pos hzx] at hbc; cases hbc
        · rw [if_neg (Nat.lt_asymm hyx), if_pos hyx] at hab; cases hab

theorem cmpBytes_lt_iff_gt {a b : Bytes} : cmpBytes a b = .lt ↔ cmpBytes b a = .gt := by
  rw [cmpBytes_swap a b]
  cases cmpBytes a b <;> simp [Ordering.swap]

theorem cmpBytes_not_gt {a b : Bytes} :
    cmpBytes a b ≠ .gt ↔ cmpBytes a b = .lt ∨ a = b := by
  constructor
  · intro hne
    rcases h : cmpBytes a b with _ | _ | _
    · exact Or.inl rfl
    · exact Or.inr ((cmpBytes_eq_iff a b).mp h)
    · exact absurd h hne
  · rintro (h | rfl)
    · rw [h]; intro h'; cases h'
    · rw [cmpBytes_self]; intro h'; cases h'

theorem cmpBytes_le_lt_trans {a b c : Bytes}
    (hab : cmpBytes a b ≠ .gt) (hbc : cmpBytes b c = .lt) : cmpBytes a c = .lt := by
  rcases cmpBytes_not_gt.mp hab with h | rfl
  · exact cmpBytes_lt_trans a b c h hbc
  · exact hbc

theorem cmpBytes_lt_le_trans {a b c : Bytes}
    (hab : cmpBytes a b = .lt) (hbc : cmpBytes b c ≠ .gt) : cmpBytes a c = .lt := by
  rcases cmpBytes_not_gt.mp hbc with h | rfl
  · exact cmpBytes_lt_trans a b c hab h
  · exact hab

theorem cmpBytes_append_same : ∀ p a b : Bytes, cmpBytes (p ++ a) (p ++ b) = cmpBytes a b := by
  intro p
  induction p with
  | nil => intro a b; rfl
  | cons x xs ih => intro a b; simp [cmpBytes, ih]

/-- A byte string lying between two strings that share the common head `p`
itself starts with `p`, and its tail lies between the two tails. -/
theorem cmpBytes_between :
    ∀ p s t r : Bytes, cmpBytes (p ++ s) r ≠ .gt → cmpBytes r (p ++ t) ≠ .gt →
      ∃ u, r = p ++ u ∧ cmpBytes s u ≠ .gt ∧ cmpBytes u t ≠ .gt := by
  intro p
  induction p with
  | nil => intro s t r h1 h2; exact ⟨r, rfl, h1, h2⟩
  | cons x xs ih =>
    intro s t r h1 h2
    cases r with
    | nil => simp [cmpBytes] at h1
    | cons y ys =>
      simp only [List.cons_append, cmpBytes] at h1 h2
      rcases Nat.lt_trichotomy x y with hxy | rfl | hyx
      · rw [if_neg (Nat.lt_asymm hxy), if_pos hxy] at h2
        exact absurd rfl h2
      · rw [if_neg (lt_irrefl x), if_neg (lt_irrefl x)] at h1 h2
        obtain ⟨u, rfl, hu1, hu2⟩ := ih s t ys h1 h2
        exact ⟨u, rfl, hu1, hu2⟩
      · rw [if_neg (Nat.lt_asymm hyx), if_pos hyx] at h1
        exact absurd rfl h1

end vkv

namespace vkv

/-! ### Sorted-store lemmas -/

theorem cmpBytes_self_not_lt (a : Bytes) : cmpBytes a a ≠ .lt := by
  rw [cmpBytes_self]; intro h; cases h

theorem sget_sset_self : ∀ (db : Store) (k v : Bytes), sget (sset db k v) k = some v := by
  intro db k v
  induction db with
  | nil => simp [sset, sget]
  | cons e rest ih =>
    obtain ⟨k', v'⟩ := e
    simp only [sset]
    rcases h : cmpBytes k k' with _ | _ | _
    · simp [sget]
    · simp [sget]
    · have hne : k ≠ k' := by
        intro heq
        rw [heq, cmpBytes_self] at h
        cases h
      simp [sget, hne, ih]

theorem sget_sset_ne :
    ∀ (db : Store) (k v k2 : Bytes), k2 ≠ k → sget (sset db k v) k2 = sget db k2 := by
  intro db k v k2 hne
  induction db with
  | nil => simp [sset, sget, hne]
  | cons e rest ih =>
    obtain ⟨k', v'⟩ := e
    simp only [sset]
    rcases h : cmpBytes k k' with _ | _ | _
    · simp [sget, hne]
    · have : k = k' := (cmpBytes_eq_iff k k').mp h
      subst this
      simp [sget, hne]
    · simp only [sget]
      by_cases h2 : k2 = k'
      · simp [h2]
      · simp [h2, ih]

theorem mem_sset :
    ∀ (db : Store) (k v : Bytes) (e : Bytes × Bytes),
      e ∈ sset db k v → e = (k, v) ∨ e ∈ db := by
  intro db k v e
  induction db with
  | nil => simp [sset]
  | cons e' rest ih =>
    obtain ⟨k', v'⟩ := e'
    simp only [sset]
    rcases h : cmpBytes k k' with _ | _ | _
    · intro hm
      rcases List.mem_cons.mp hm with h1 | h1
      · exact Or.inl h1
      · exact Or.inr h1
    · intro hm
      rcases List.mem_cons.mp hm with h1 | h1
      · exact Or.inl h1
      · exact Or.inr (List.mem_cons_of_mem _ h1)
    · intro hm
      rcases List.mem_cons.mp hm with h1 | h1
      · exact Or.inr (h1 ▸ List.mem_cons_self _ _)
      · rcases ih h1 with h2 | h2
        · exact Or.inl h2
        · exact Or.inr (List.mem_cons_of_mem _ h2)

theorem sset_pairwise :
    ∀ (db : Store) (k v : Bytes), List.Pairwise entLt db → List.Pairwise entLt (sset db k v) := by
  intro db k v hp
  induction db with
  | nil => simp [sset]
  | cons e rest ih =>
    obtain ⟨k', v'⟩ := e
    rcases List.pairwise_cons.mp hp with ⟨hhead, htail⟩
    simp only [sset]
    rcases h : cmpBytes k k' with _ | _ | _
    · refine List.pairwise_cons.mpr ⟨?_, hp⟩
      intro x hx
      rcases List.mem_cons.mp hx with h1 | h1
      · subst h1; exact h
      · exact cmpBytes_lt_trans _ _ _ h (hhead x h1)
    · have : k = k' := (cmpBytes_eq_iff k k').mp h
      subst this
      exact List.pairwise_cons.mpr ⟨hhead, htail⟩
    · refine List.pairwise_cons.mpr ⟨?_, ih htail⟩
      intro x hx
      rcases mem_sset rest k v x hx with h1 | h1
      · subst h1
        exact cmpBytes_lt_iff_gt.mpr h
      · exact hhead x h1

theorem mem_iff_sget :
    ∀ (db : Store) (k v : Bytes), List.Pairwise entLt db →
      ((k, v) ∈ db ↔ sget db k = some v) := by
  intro db k v hp
  induction db with
  | nil => simp [sget]
  | cons e rest ih =>
    obtain ⟨k', v'⟩ := e
    rcases List.pairwise_cons.mp hp with ⟨hhead, htail⟩
    simp only [sget]
    by_cases hk : k = k'
    · subst hk
      simp only [if_pos rfl]
      constructor
      · intro hm
        rcases List.mem_cons.mp hm with h1 | h1
        · have hv : v = v' := congrArg Prod.snd h1
          rw [hv]
          simp
        · exact absurd (hhead _ h1) (cmpBytes_self_not_lt k)
      · intro hv
        have : v' = v := by injection hv
        subst this
        exact List.mem_cons_self _ _
    · simp only [if_neg hk]
      constructor
      · intro hm
        rcases List.mem_cons.mp hm with h1 | h1
        · exact absurd (congrArg Prod.fst h1) hk
        · exact (ih htail).mp h1
      · intro hv
        exact List.mem_cons_of_mem _ ((ih htail).mpr hv)

theorem sorted_ext :
    ∀ l1 l2 : Store, List.Pairwise entLt l1 → List.Pairwise entLt l2 →
      (∀ e, e ∈ l1 ↔ e ∈ l2) → l1 = l2 := by
  intro l1
  induction l1 with
  | nil =>
    intro l2 _ _ hiff
    cases l2 with
    | nil => rfl
    | cons b t2 => exact absurd ((hiff b).mpr (List.mem_cons_self _ _)) (List.not_mem_nil b)
  | cons a t1 ih =>
    intro l2 hp1 hp2 hiff
    cases l2 with
    | nil => exact absurd ((hiff a).mp (List.mem_cons_self _ _)) (List.not_mem_nil a)
    | cons b t2 =>
      rcases List.pairwise_cons.mp hp1 with ⟨h1a, h1t⟩
      rcases List.pairwise_cons.mp hp2 with ⟨h2b, h2t⟩
      have hab : a = b := by
        rcases List.mem_cons.mp ((hiff a).mp (List.mem_cons_self _ _)) with h | h
        · exact h
        · rcases List.mem_cons.mp ((hiff b).mpr (List.mem_cons_self _ _)) with h' | h'
          · exact h'.symm
          · have hba := h2b a h
            have hab := h1a b h'
            simp only [entLt] at hba hab
            rw [cmpBytes_lt_iff_gt] at hab
            rw [hab] at hba
            cases hba
      subst hab
      have htiff : ∀ e, e ∈ t1 ↔ e ∈ t2 := by
        intro e
        constructor
        · intro he
          rcases List.mem_cons.mp ((hiff e).mp (List.mem_cons_of_mem _ he)) with h | h
          · subst h
            exact absurd (h1a e he) (cmpBytes_self_not_lt e.1)
          · exact h
        · intro he
          rcases List.mem_cons.mp ((hiff e).mpr (List.mem_cons_of_mem _ he)) with h | h
          · subst h
            exact absurd (h2b e he) (cmpBytes_self_not_lt e.1)
          · exact h
      rw [ih t2 h1t h2t htiff]

theorem seek_sublist : ∀ (db : Store) (k : Bytes), (seek db k).Sublist db := by
  intro db k
  induction db with
  | nil => simp [seek]
  | cons e rest ih =>
    simp only [seek]
    by_cases h : cmpBytes e.1 k = .lt
    · simp only [if_pos h]
      exact ih.cons e
    · simp only [if_neg h]
      exact List.Sublist.refl _

theorem seek_pairwise (db : Store) (k : Bytes) (hp : List.Pairwise entLt db) :
    List.Pairwise entLt (seek db k) :=
  hp.sublist (seek_sublist db k)

/-- Every entry the cursor yields after `Seek` has key at or above the target. -/
theorem seek_ge :
    ∀ (db : Store) (k : Bytes), List.Pairwise entLt db →
      ∀ e ∈ seek db k, cmpBytes k e.1 ≠ .gt := by
  intro db k hp
  induction db with
  | nil => simp [seek]
  | cons a rest ih =>
    rcases List.pairwise_cons.mp hp with ⟨hhead, htail⟩
    simp only [seek]
    by_cases h : cmpBytes a.1 k = .lt
    · simp only [if_pos h]
      exact ih htail
    · simp only [if_neg h]
      intro e he
      rcases List.mem_cons.mp he with h1 | h1
      · subst h1
        rw [Ne, ← cmpBytes_lt_iff_gt]
        exact h
      · have hk : cmpBytes k a.1 ≠ .gt := by
          rw [Ne, ← cmpBytes_lt_iff_gt]
          exact h
        have := cmpBytes_le_lt_trans hk (hhead e h1)
        rw [this]
        intro hc
        cases hc

end vkv

namespace vkv

/-! ### Digit-encoding lemmas -/

theorem toLEDigits_length : ∀ d n, (toLEDigits d n).length = d := by
  intro d
  induction d with
  | zero => intro n; rfl
  | succ d ih => intro n; simp [toLEDigits, ih]

theorem toBEDigits_length : ∀ d n, (toBEDigits d n).length = d := by
  intro d
  induction d with
  | zero => intro n; rfl
  | succ d ih => intro n; simp [toBEDigits, ih]

theorem take_of_length_eq {α : Type} (l : List α) (n : Nat) (h : l.length = n) :
    l.take n = l := by
  subst h
  exact List.take_length l

theorem fromLE_toLEDigits : ∀ d n, fromLE (toLEDigits d n) = n % 256 ^ d := by
  intro d
  induction d with
  | zero => intro n; simp [toLEDigits, fromLE, Nat.mod_one]
  | succ d ih =>
    intro n
    simp only [toLEDigits, fromLE, ih]
    rw [show (256 : Nat) ^ (d + 1) = 256 * 256 ^ d from by ring]
    exact Nat.mod_mul.symm

theorem leU32_toLE32 (n : Nat) : leU32 (toLE32 n) = n % 2 ^ 32 := by
  rw [leU32, toLE32, take_of_length_eq _ _ (toLEDigits_length 4 n), fromLE_toLEDigits]
  norm_num

theorem fromBE_aux :
    ∀ d (a n : Nat),
      (toBEDigits d n).foldl (fun acc x => acc * 256 + x) a = a * 256 ^ d + n % 256 ^ d := by
  intro d
  induction d with
  | zero => intro a n; simp [toBEDigits, Nat.mod_one]
  | succ d ih =>
    intro a n
    simp only [toBEDigits, List.foldl]
    rw [ih, Nat.mod_mod_of_dvd _ dvd_rfl, Nat.mod_pow_succ]
    ring

theorem fromBE_toBEDigits (d n : Nat) : fromBE (toBEDigits d n) = n % 256 ^ d := by
  rw [fromBE, fromBE_aux]
  simp

theorem fromBE_toBE32 (n : Nat) : fromBE (toBE32 n) = n % 2 ^ 32 := by
  rw [toBE32, fromBE_toBEDigits]
  norm_num

theorem toBEDigits_mono :
    ∀ d a b, b < 256 ^ d → a < b → cmpBytes (toBEDigits d a) (toBEDigits d b) = .lt := by
  intro d
  induction d with
  | zero =>
    intro a b hb hab
    exact absurd hab (by omega)
  | succ d ih =>
    intro a b hb hab
    have hpos : 0 < (256 : Nat) ^ d := Nat.pow_pos (by norm_num)
    have hb' : b / 256 ^ d < 256 := by
      rw [Nat.div_lt_iff_lt_mul hpos]
      calc b < 256 ^ (d + 1) := hb
        _ = 256 * 256 ^ d := by ring
    have hda : a / 256 ^ d ≤ b / 256 ^ d := Nat.div_le_div_right (le_of_lt hab)
    have ha' : a / 256 ^ d < 256 := lt_of_le_of_lt hda hb'
    simp only [toBEDigits, cmpBytes]
    rw [Nat.mod_eq_of_lt ha', Nat.mod_eq_of_lt hb']
    rcases lt_or_eq_of_le hda with h | h
    · rw [if_pos h]
    · rw [h, if_neg (lt_irrefl _), if_neg (lt_irrefl _)]
      apply ih
      · exact Nat.mod_lt _ hpos
      · have h1 := Nat.div_add_mod a (256 ^ d)
        have h2 := Nat.div_add_mod b (256 ^ d)
        rw [h] at h1
        omega

theorem toBEDigits_inj (d a b : Nat) (ha : a < 256 ^ d) (hb : b < 256 ^ d)
    (h : toBEDigits d a = toBEDigits d b) : a = b := by
  have hc := congrArg fromBE h
  rw [fromBE_toBEDigits, fromBE_toBEDigits, Nat.mod_eq_of_lt ha, Nat.mod_eq_of_lt hb] at hc
  exact hc

theorem toBEDigits_lt_iff (d a b : Nat) (ha : a < 256 ^ d) (hb : b < 256 ^ d) :
    cmpBytes (toBEDigits d a) (toBEDigits d b) = .lt ↔ a < b := by
  constructor
  · intro h
    rcases Nat.lt_trichotomy a b with h' | rfl | h'
    · exact h'
    · rw [cmpBytes_self] at h; cases h
    · have hgt := cmpBytes_lt_iff_gt.mp (toBEDigits_mono d b a ha h')
      rw [hgt] at h
      cases h
  · exact toBEDigits_mono d a b hb

theorem toBEDigits_not_gt_iff (d a b : Nat) (ha : a < 256 ^ d) (hb : b < 256 ^ d) :
    cmpBytes (toBEDigits d a) (toBEDigits d b) ≠ .gt ↔ a ≤ b := by
  rw [cmpBytes_not_gt]
  constructor
  · rintro (h | h)
    · exact le_of_lt ((toBEDigits_lt_iff d a b ha hb).mp h)
    · exact le_of_eq (toBEDigits_inj d a b ha hb h)
  · intro h
    rcases lt_or_eq_of_le h with h' | h'
    · exact Or.inl (toBEDigits_mono d a b hb h')
    · exact Or.inr (congrArg (toBEDigits d) h')

theorem toBEDigits_all_lt : ∀ d n, ∀ x ∈ toBEDigits d n, x < 256 := by
  intro d
  induction d with
  | zero => intro n x hx; cases hx
  | succ d ih =>
    intro n x hx
    rcases List.mem_cons.mp hx with h | h
    · subst h
      exact Nat.mod_lt _ (by norm_num)
    · exact ih _ x h

/-! ### Item-key codec lemmas -/

theorem itemKeyRaw_length (k : Bytes) (v : Nat) : (itemKeyRaw k v).length = k.length + 9 := by
  simp [itemKeyRaw, toLE32, toBE32, toLEDigits_length, toBEDigits_length]
  omega

/-- Decoding an encoded item key recovers the user key and the (truncated)
version, provided the key length fits in 32 bits. -/
theorem decodeKey_itemKeyRaw (k : Bytes) (v : Nat) (hk : k.length < 2 ^ 32)
    (hv : v < 2 ^ 32) : decodeKey (itemKeyRaw k v) = (k, (v : Int)) := by
  have hlen4 : (toLE32 k.length).length = 4 := toLEDigits_length 4 k.length
  have hdrop1 : (itemKeyRaw k v).drop 1 = toLE32 k.length ++ (k ++ toBE32 v) := by
    simp [itemKeyRaw]
  have hdrop5 : (itemKeyRaw k v).drop 5 = k ++ toBE32 v := by
    have : (itemKeyRaw k v).drop 5 = ((itemKeyRaw k v).drop 1).drop 4 := by
      rw [List.drop_drop]
    rw [this, hdrop1, List.drop_left' hlen4]
  have hle : leU32 ((itemKeyRaw k v).drop 1) = k.length := by
    rw [hdrop1, leU32, List.take_left' hlen4, toLE32, fromLE_toLEDigits,
      show (256 : Nat) ^ 4 = 2 ^ 32 from by norm_num, Nat.mod_eq_of_lt hk]
  have hlast : (itemKeyRaw k v).drop ((itemKeyRaw k v).length - 4) = toBE32 v := by
    rw [itemKeyRaw_length]
    have h9 : k.length + 9 - 4 = 5 + k.length := by omega
    rw [h9, ← List.drop_drop, hdrop5, List.drop_left' rfl]
  rw [decodeKey, hle, hdrop5, List.take_left' rfl, hlast, fromBE_toBE32,
    Nat.mod_eq_of_lt hv]

end vkv

namespace vkv

/-! ### Scan characterization: a limit-0 scan is a range filter -/

theorem inRangeB_eq_true {lo hi r : Bytes} :
    inRangeB lo hi r = true ↔ cmpBytes lo r ≠ .gt ∧ cmpBytes r hi ≠ .gt := by
  simp [inRangeB]

theorem versionsLoop_limit0 :
    ∀ (l : Store) (endB : Bytes) (i : Int), List.Pairwise entLt l →
      versionsLoop endB 0 l i
        = (l.filter (fun x => decide (cmpBytes x.1 endB ≠ .gt))).map
            (fun x => ⟨[], x.2, (decodeKey x.1).2⟩) := by
  intro l
  induction l with
  | nil => intro endB i _; rfl
  | cons e rest ih =>
    intro endB i hp
    obtain ⟨k, v⟩ := e
    rcases List.pairwise_cons.mp hp with ⟨hhead, htail⟩
    simp only [versionsLoop]
    by_cases h : cmpBytes k endB = .gt
    · rw [if_pos (Or.inl h)]
      have hnil : rest.filter (fun x => decide (cmpBytes x.1 endB ≠ .gt)) = [] := by
        rw [List.filter_eq_nil_iff]
        intro a ha
        have hlt : cmpBytes endB a.1 = .lt :=
          cmpBytes_lt_trans _ _ _ (cmpBytes_lt_iff_gt.mpr h) (hhead a ha)
        simp [cmpBytes_lt_iff_gt.mp hlt]
      rw [List.filter_cons_of_neg (by simp [h]), hnil]
      rfl
    · have hcond : ¬(cmpBytes k endB = .gt ∨ ((0 : Int) ≠ 0 ∧ i > 0)) := by
        simp [h]
      rw [if_neg hcond, ih endB (i + 1) htail,
        List.filter_cons_of_pos (by simp [h]), List.map_cons]

theorem keysLoop_limit0 :
    ∀ (l : Store) (endB : Bytes) (i : Int), List.Pairwise entLt l →
      keysLoop endB 0 l i
        = (l.filter (fun x => decide (cmpBytes x.1 endB ≠ .gt))).map
            (fun x => x.1.drop 1) := by
  intro l
  induction l with
  | nil => intro endB i _; rfl
  | cons e rest ih =>
    intro endB i hp
    obtain ⟨k, v⟩ := e
    rcases List.pairwise_cons.mp hp with ⟨hhead, htail⟩
    simp only [keysLoop]
    by_cases h : cmpBytes k endB = .gt
    · rw [if_pos (Or.inl h)]
      have hnil : rest.filter (fun x => decide (cmpBytes x.1 endB ≠ .gt)) = [] := by
        rw [List.filter_eq_nil_iff]
        intro a ha
        have hlt : cmpBytes endB a.1 = .lt :=
          cmpBytes_lt_trans _ _ _ (cmpBytes_lt_iff_gt.mpr h) (hhead a ha)
        simp [cmpBytes_lt_iff_gt.mp hlt]
      rw [List.filter_cons_of_neg (by simp [h]), hnil]
      rfl
    · have hcond : ¬(cmpBytes k endB = .gt ∨ ((0 : Int) ≠ 0 ∧ i > 0)) := by
        simp [h]
      rw [if_neg hcond, ih endB (i + 1) htail,
        List.filter_cons_of_pos (by simp [h]), List.map_cons]

theorem filter_range_seek :
    ∀ (db : Store) (lo hi : Bytes), List.Pairwise entLt db →
      db.filter (fun x => inRangeB lo hi x.1)
        = (seek db lo).filter (fun x => decide (cmpBytes x.1 hi ≠ .gt)) := by
  intro db lo hi
  induction db with
  | nil => intro _; rfl
  | cons e rest ih =>
    intro hp
    rcases List.pairwise_cons.mp hp with ⟨hhead, htail⟩
    simp only [seek]
    by_cases h : cmpBytes e.1 lo = .lt
    · rw [if_pos h, ← ih htail, List.filter_cons_of_neg]
      simp [inRangeB, cmpBytes_lt_iff_gt.mp h]
    · rw [if_neg h]
      apply List.filter_congr
      intro x hx
      have hxlo : cmpBytes lo x.1 ≠ .gt := by
        rcases List.mem_cons.mp hx with h1 | h1
        · rw [h1]
          exact fun hc => h (cmpBytes_lt_iff_gt.mpr hc)
        · have hle : cmpBytes lo e.1 ≠ .gt := fun hc => h (cmpBytes_lt_iff_gt.mpr hc)
          have hlt := cmpBytes_le_lt_trans hle (hhead x h1)
          rw [hlt]
          intro hc
          cases hc
      simp [inRangeB, hxlo]

/-- A call `Versions(key, start, end, 0)` on a sorted store selects exactly the
entries whose raw key lies between the two encoded bounds, in store
order, and emits `(value, decoded version)` for each. -/
theorem Versions_eq_filter (db : Store) (key : Bytes) (s e : Int)
    (hp : List.Pairwise entLt db) :
    Versions db key s e 0
      = (db.filter (fun x => inRangeB (encodeKey key s) (encodeKey key e) x.1)).map
          (fun x => ⟨[], x.2, (decodeKey x.1).2⟩) := by
  rw [Versions, versionsLoop_limit0 _ _ _ (seek_pairwise db _ hp),
    filter_range_seek db _ _ hp]

/-- A call `Keys(start, end, 0)` on a sorted store selects exactly the entries
between the two `KvKeyIndex`-tagged bounds and strips the tag. -/
theorem Keys_eq_filter (db : Store) (s e : Bytes) (hp : List.Pairwise entLt db) :
    Keys db s e 0
      = (db.filter (fun x =>
            inRangeB (encodeMeta KvKeyIndex s) (encodeMeta KvKeyIndex e) x.1)).map
          (fun x => x.1.drop 1) := by
  rw [Keys, keysLoop_limit0 _ _ _ (seek_pairwise db _ hp),
    filter_range_seek db _ _ hp]

end vkv

namespace vkv

/-! ### Raw-key shapes written by `Put`, and well-formed stores -/

theorem u32I_lt (v : Int) : u32I v < 2 ^ 32 := by
  have h1 : v % (2 ^ 32 : Int) < 2 ^ 32 := Int.emod_lt_of_pos v (by norm_num)
  have h2 : (0 : Int) ≤ v % (2 ^ 32 : Int) := Int.emod_nonneg v (by norm_num)
  rw [u32I]
  omega

theorem itemPre_length (k : Bytes) : (itemPre k).length = k.length + 5 := by
  simp [itemPre, toLE32, toLEDigits_length]
  omega

theorem itemKeyRaw_pre (k : Bytes) (v : Nat) : itemKeyRaw k v = itemPre k ++ toBE32 v := by
  simp [itemKeyRaw, itemPre]

theorem itemPre_inj (k1 k2 : Bytes) (h : itemPre k1 = itemPre k2) : k1 = k2 := by
  have h' : toLE32 k1.length ++ k1 = toLE32 k2.length ++ k2 := by
    have hd := congrArg (List.drop 1) h
    simpa [itemPre] using hd
  have hkey := congrArg (List.drop 4) h'
  rw [List.drop_left' (show (toLE32 k1.length).length = 4 from toLEDigits_length 4 _),
    List.drop_left' (show (toLE32 k2.length).length = 4 from toLEDigits_length 4 _)] at hkey
  exact hkey

theorem itemKeyRaw_inj_key (k1 k2 : Bytes) (v1 v2 : Nat)
    (h : itemKeyRaw k1 v1 = itemKeyRaw k2 v2) : k1 = k2 := by
  have hlen : k1.length = k2.length := by
    have hl := congrArg List.length h
    rw [itemKeyRaw_length, itemKeyRaw_length] at hl
    omega
  rw [itemKeyRaw_pre, itemKeyRaw_pre] at h
  have htake := congrArg (List.take (k1.length + 5)) h
  rw [List.take_left' (itemPre_length k1),
    List.take_left' (by rw [itemPre_length k2, hlen])] at htake
  exact itemPre_inj k1 k2 htake

theorem WF_nil : WF [] := ⟨List.Pairwise.nil, by intro e he; cases he⟩

theorem WF_sset (db : Store) (k v : Bytes) (hdb : WF db) (hk : KeyShape k) :
    WF (sset db k v) := by
  refine ⟨sset_pairwise db k v hdb.1, ?_⟩
  intro e he
  rcases mem_sset db k v e he with h | h
  · rw [h]
    exact hk
  · exact hdb.2 e h

end vkv

namespace vkv

/-! ### The footprint of a `Put`'s counter phase -/

theorem MetaTouch_refl (key : Bytes) (db : Store) : MetaTouch key db db :=
  ⟨fun _ _ _ _ => rfl, id, fun _ he => Or.inl he⟩

theorem MetaTouch_sset (key : Bytes) (db : Store) (m v : Bytes)
    (hm : m = encodeMeta KvVersionMin key ∨ m = encodeMeta KvVersionMax key ∨
      m = encodeMeta Meta (encodeMeta KvVersionCnt key)) :
    MetaTouch key db (sset db m v) := by
  refine ⟨?_, fun hp => sset_pairwise db m v hp, ?_⟩
  · intro r h1 h2 h3
    apply sget_sset_ne
    rcases hm with h | h | h
    · rw [h]; exact h1
    · rw [h]; exact h2
    · rw [h]; exact h3
  · intro e he
    rcases mem_sset db m v e he with h | h
    · rcases hm with hm | hm | hm
      · exact Or.inr (Or.inl (by rw [h, hm]))
      · exact Or.inr (Or.inr (Or.inl (by rw [h, hm])))
      · exact Or.inr (Or.inr (Or.inr (by rw [h, hm])))
    · exact Or.inl h

theorem MetaTouch_trans (key : Bytes) (db1 db2 db3 : Store)
    (h12 : MetaTouch key db1 db2) (h23 : MetaTouch key db2 db3) : MetaTouch key db1 db3 :=
  ⟨fun r h1 h2 h3 => (h23.1 r h1 h2 h3).trans (h12.1 r h1 h2 h3),
   fun hp => h23.2.1 (h12.2.1 hp),
   fun e he => (h23.2.2 e he).elim (fun h => h12.2.2 e h) Or.inr⟩

theorem MetaTouch_sset_min (key : Bytes) (db db' : Store) (v : Bytes)
    (h : MetaTouch key db db') :
    MetaTouch key db (sset db' (encodeMeta KvVersionMin key) v) :=
  MetaTouch_trans key db db' _ h (MetaTouch_sset key db' _ v (Or.inl rfl))

theorem MetaTouch_sset_max (key : Bytes) (db db' : Store) (v : Bytes)
    (h : MetaTouch key db db') :
    MetaTouch key db (sset db' (encodeMeta KvVersionMax key) v) :=
  MetaTouch_trans key db db' _ h (MetaTouch_sset key db' _ v (Or.inr (Or.inl rfl)))

theorem MetaTouch_sset_cnt (key : Bytes) (db db' : Store) (v : Bytes)
    (h : MetaTouch key db db') :
    MetaTouch key db
      (sset db' (encodeMeta Meta (encodeMeta KvVersionCnt key)) v) :=
  MetaTouch_trans key db db' _ h (MetaTouch_sset key db' _ v (Or.inr (Or.inr rfl)))

/-- Structure of a successful no-failure `Put`: a counter phase touching
only the three per-key meta entries, then the item write, then the
key-existence write. -/
theorem Put_store_spec (db : Store) (key value : Bytes) (version now : Int) :
    ∃ db3, MetaTouch key db db3 ∧
      (Put db key value version now).1
        = sset (sset db3 (encodeKey key (if version = -1 then now else version)) value)
            (encodeMeta KvKeyIndex key) [] := by
  simp only [Put, PutF, putCntStep, putItemStep, noFail]
  simp only [Bool.false_eq_true, if_false, and_false, false_and, ite_false]
  split_ifs <;>
    refine ⟨_, ?_, rfl⟩ <;>
      (try simp only [incrUint32, putUint32]
       repeat
         first
         | exact MetaTouch_refl key db
         | apply MetaTouch_sset_cnt
         | apply MetaTouch_sset_max
         | apply MetaTouch_sset_min)

end vkv

namespace vkv

/-! ### Trace invariants -/

theorem KeyShape_encodeKey (key : Bytes) (hk : key.length < 2 ^ 32) (v : Int) :
    KeyShape (encodeKey key v) :=
  Or.inr (Or.inr (Or.inl ⟨key, u32I v, u32I_lt v, hk, rfl⟩))

theorem WF_Put (db : Store) (key value : Bytes) (version now : Int)
    (hk : key.length < 2 ^ 32) (hdb : WF db) : WF (Put db key value version now).1 := by
  obtain ⟨db3, hmt, heq⟩ := Put_store_spec db key value version now
  rw [heq]
  have hdb3 : WF db3 := by
    refine ⟨hmt.2.1 hdb.1, ?_⟩
    intro e he
    rcases hmt.2.2 e he with h | h | h | h
    · exact hdb.2 e h
    · exact Or.inr (Or.inr (Or.inr (Or.inl ⟨key, h⟩)))
    · exact Or.inr (Or.inr (Or.inr (Or.inr ⟨key, h⟩)))
    · exact Or.inl ⟨key, h⟩
  exact WF_sset _ _ _ (WF_sset _ _ _ hdb3 (KeyShape_encodeKey key hk _))
    (Or.inr (Or.inl ⟨key, rfl⟩))

theorem Put_sget_keyIndex (db : Store) (key value : Bytes) (version now : Int) (k' : Bytes) :
    sget (Put db key value version now).1 (encodeMeta KvKeyIndex k')
      = if k' = key then some [] else sget db (encodeMeta KvKeyIndex k') := by
  obtain ⟨db3, hmt, heq⟩ := Put_store_spec db key value version now
  rw [heq]
  by_cases h : k' = key
  · rw [if_pos h, h, sget_sset_self]
  · rw [if_neg h,
      sget_sset_ne _ _ _ _ (by simp [encodeMeta, h]),
      sget_sset_ne _ _ _ _ (by simp [encodeMeta, encodeKey, itemKeyRaw, KvKeyIndex, KvItem]),
      hmt.1 _ (by simp [encodeMeta, KvKeyIndex, KvVersionMin])
        (by simp [encodeMeta, KvKeyIndex, KvVersionMax])
        (by simp [encodeMeta, KvKeyIndex, Meta])]

theorem NotWritten_nil (ks : List Bytes) : NotWritten [] ks := by
  intro k' _
  exact ⟨rfl, rfl, rfl, rfl, fun _ => rfl⟩

theorem NotWritten_mono (db : Store) (A B : List Bytes) (hAB : ∀ x, x ∈ A → x ∈ B)
    (h : NotWritten db A) : NotWritten db B :=
  fun k' hk' => h k' (fun hx => hk' (hAB _ hx))

theorem Put_NotWritten (db : Store) (key value : Bytes) (version now : Int)
    (ks : List Bytes) (h : NotWritten db ks) :
    NotWritten (Put db key value version now).1 (key :: ks) := by
  obtain ⟨db3, hmt, heq⟩ := Put_store_spec db key value version now
  rw [heq]
  intro k' hk'
  have hne : k' ≠ key := fun hc => hk' (hc ▸ List.mem_cons_self _ _)
  have hks : k' ∉ ks := fun hc => hk' (List.mem_cons_of_mem _ hc)
  obtain ⟨g1, g2, g3, g4, g5⟩ := h k' hks
  refine ⟨?_, ?_, ?_, ?_, ?_⟩
  · rw [sget_sset_ne _ _ _ _ (by simp [encodeMeta, KvVersionMin, KvKeyIndex]),
      sget_sset_ne _ _ _ _
        (by simp [encodeMeta, encodeKey, itemKeyRaw, KvVersionMin, KvItem]),
      hmt.1 _ (by simp [encodeMeta, hne]) (by simp [encodeMeta, KvVersionMin, KvVersionMax])
        (by simp [encodeMeta, KvVersionMin, Meta]), g1]
  · rw [sget_sset_ne _ _ _ _ (by simp [encodeMeta, KvVersionMax, KvKeyIndex]),
      sget_sset_ne _ _ _ _
        (by simp [encodeMeta, encodeKey, itemKeyRaw, KvVersionMax, KvItem]),
      hmt.1 _ (by simp [encodeMeta, KvVersionMax, KvVersionMin]) (by simp [encodeMeta, hne])
        (by simp [encodeMeta, KvVersionMax, Meta]), g2]
  · rw [sget_sset_ne _ _ _ _ (by simp [encodeMeta, Meta, KvKeyIndex]),
      sget_sset_ne _ _ _ _ (by simp [encodeMeta, encodeKey, itemKeyRaw, Meta, KvItem]),
      hmt.1 _ (by simp [encodeMeta, Meta, KvVersionMin]) (by simp [encodeMeta, Meta, KvVersionMax])
        (by simp [encodeMeta, hne]), g3]
  · rw [sget_sset_ne _ _ _ _ (by simp [encodeMeta, hne]),
      sget_sset_ne _ _ _ _ (by simp [encodeMeta, encodeKey, itemKeyRaw, KvKeyIndex, KvItem]),
      hmt.1 _ (by simp [encodeMeta, KvKeyIndex, KvVersionMin])
        (by simp [encodeMeta, KvKeyIndex, KvVersionMax])
        (by simp [encodeMeta, KvKeyIndex, Meta]), g4]
  · intro v
    rw [sget_sset_ne _ _ _ _ (by simp [encodeMeta, itemKeyRaw, KvKeyIndex, KvItem]),
      sget_sset_ne _ _ _ _
        (by intro hc; exact hne (itemKeyRaw_inj_key k' key v _ (by simpa [encodeKey] using hc))),
      hmt.1 _ (by simp [encodeMeta, itemKeyRaw, KvItem, KvVersionMin])
        (by simp [encodeMeta, itemKeyRaw, KvItem, KvVersionMax])
        (by simp [encodeMeta, itemKeyRaw, KvItem, Meta]), g5 v]

theorem applyTrace_eq_run (ops : List Op) : applyTrace ops = runTrace ops [] := rfl

theorem runTrace_WF :
    ∀ (ops : List Op) (db : Store), WF db → (∀ o ∈ ops, o.key.length < 2 ^ 32) →
      WF (runTrace ops db) := by
  intro ops
  induction ops with
  | nil => intro db h _; exact h
  | cons o rest ih =>
    intro db h hlen
    exact ih _ (WF_Put _ _ _ _ _ (hlen o (List.mem_cons_self _ _)) h)
      (fun o' ho' => hlen o' (List.mem_cons_of_mem _ ho'))

theorem applyTrace_WF (ops : List Op) (h : ∀ o ∈ ops, o.key.length < 2 ^ 32) :
    WF (applyTrace ops) := by
  rw [applyTrace_eq_run]
  exact runTrace_WF ops [] WF_nil h

theorem runTrace_keyIndex :
    ∀ (ops : List Op) (db : Store) (k' : Bytes),
      sget (runTrace ops db) (encodeMeta KvKeyIndex k')
        = if k' ∈ ops.map Op.key then some []
          else sget db (encodeMeta KvKeyIndex k') := by
  intro ops
  induction ops with
  | nil => intro db k'; simp [runTrace]
  | cons o rest ih =>
    intro db k'
    have hstep : runTrace (o :: rest) db
        = runTrace rest (Put db o.key o.value o.version o.now).1 := rfl
    rw [hstep, ih]
    by_cases h : k' ∈ rest.map Op.key
    · rw [if_pos h, if_pos (by simp [h])]
    · rw [if_neg h, Put_sget_keyIndex]
      by_cases h2 : k' = o.key
      · rw [if_pos h2, if_pos (by simp [h2])]
      · rw [if_neg h2, if_neg (by simp [h, h2])]

theorem applyTrace_keyIndex (ops : List Op) (k' : Bytes) :
    sget (applyTrace ops) (encodeMeta KvKeyIndex k')
      = if k' ∈ ops.map Op.key then some [] else none := by
  rw [applyTrace_eq_run, runTrace_keyIndex]
  split_ifs <;> rfl

theorem runTrace_NotWritten :
    ∀ (ops : List Op) (db : Store) (ks : List Bytes), NotWritten db ks →
      NotWritten (runTrace ops db) (ops.map Op.key ++ ks) := by
  intro ops
  induction ops with
  | nil => intro db ks h; simpa using h
  | cons o rest ih =>
    intro db ks h
    have h1 := Put_NotWritten db o.key o.value o.version o.now ks h
    have h2 := ih _ _ h1
    refine NotWritten_mono _ _ _ ?_ h2
    intro x hx
    simp only [List.map_cons, List.cons_append, List.mem_cons, List.mem_append] at hx ⊢
    tauto

theorem applyTrace_NotWritten (ops : List Op) :
    NotWritten (applyTrace ops) (ops.map Op.key) := by
  rw [applyTrace_eq_run]
  have := runTrace_NotWritten ops [] [] (NotWritten_nil [])
  simpa using this

end vkv

namespace vkv

/-! ### Range analysis for item keys -/

theorem toBE32_not_gt_iff (a b : Nat) (ha : a < 2 ^ 32) (hb : b < 2 ^ 32) :
    cmpBytes (toBE32 a) (toBE32 b) ≠ .gt ↔ a ≤ b := by
  have h256 : (256 : Nat) ^ 4 = 2 ^ 32 := by norm_num
  exact toBEDigits_not_gt_iff 4 a b (by rw [h256]; exact ha) (by rw [h256]; exact hb)

theorem toBE32_lt_iff (a b : Nat) (ha : a < 2 ^ 32) (hb : b < 2 ^ 32) :
    cmpBytes (toBE32 a) (toBE32 b) = .lt ↔ a < b := by
  have h256 : (256 : Nat) ^ 4 = 2 ^ 32 := by norm_num
  exact toBEDigits_lt_iff 4 a b (by rw [h256]; exact ha) (by rw [h256]; exact hb)

theorem itemPre_append_ne_cons (k : Bytes) (u : List Nat) (t : Nat) (k' : Bytes)
    (ht : t ≠ KvItem) : itemPre k ++ u ≠ t :: k' := by
  intro h
  rw [itemPre, List.cons_append] at h
  injection h with h1 _
  exact ht h1.symm

theorem itemPre_append_inj (k k' : Bytes) (u u' : List Nat)
    (hk : k.length < 2 ^ 32) (hk' : k'.length < 2 ^ 32)
    (h : itemPre k ++ u = itemPre k' ++ u') : k = k' ∧ u = u' := by
  have hd : (toLE32 k.length ++ k) ++ u = (toLE32 k'.length ++ k') ++ u' := by
    have hd1 := congrArg (List.drop 1) h
    simpa [itemPre] using hd1
  rw [List.append_assoc, List.append_assoc] at hd
  have ht4 := congrArg (List.take 4) hd
  rw [List.take_left' (show (toLE32 k.length).length = 4 from toLEDigits_length 4 _),
    List.take_left' (show (toLE32 k'.length).length = 4 from toLEDigits_length 4 _)] at ht4
  have hlen : k.length = k'.length := by
    have hfl := congrArg fromLE ht4
    have h256 : (256 : Nat) ^ 4 = 2 ^ 32 := by norm_num
    rw [toLE32, toLE32, fromLE_toLEDigits, fromLE_toLEDigits, h256,
      Nat.mod_eq_of_lt hk, Nat.mod_eq_of_lt hk'] at hfl
    exact hfl
  have hd4 := congrArg (List.drop 4) hd
  rw [List.drop_left' (show (toLE32 k.length).length = 4 from toLEDigits_length 4 _),
    List.drop_left' (show (toLE32 k'.length).length = 4 from toLEDigits_length 4 _)] at hd4
  have htk := congrArg (List.take k.length) hd4
  rw [List.take_left' rfl, List.take_left' hlen.symm] at htk
  have hdk := congrArg (List.drop k.length) hd4
  rw [List.drop_left' rfl, List.drop_left' hlen.symm] at hdk
  exact ⟨htk, hdk⟩

theorem isItemOf_itemKeyRaw (k : Bytes) (v : Nat) : isItemOf k (itemKeyRaw k v) = true := by
  simp only [isItemOf, Bool.and_eq_true, decide_eq_true_eq]
  refine ⟨itemKeyRaw_length k v, ?_⟩
  rw [itemKeyRaw_pre]
  exact List.take_left' (itemPre_length k)

theorem isItemOf_shape (k r : Bytes) (hk : k.length < 2 ^ 32) (hs : KeyShape r) :
    isItemOf k r = true ↔ ∃ v, v < 2 ^ 32 ∧ r = itemKeyRaw k v := by
  constructor
  · intro h
    simp only [isItemOf, Bool.and_eq_true, decide_eq_true_eq] at h
    obtain ⟨hlen, htake⟩ := h
    have hfront : itemPre k ++ r.drop (k.length + 5) = r := by
      rw [← htake]
      exact List.take_append_drop _ r
    rcases hs with ⟨k', hr⟩ | ⟨k', hr⟩ | ⟨k', v, hv, hk', hr⟩ | ⟨k', hr⟩ | ⟨k', hr⟩
    · rw [hr] at hfront
      exact absurd hfront (itemPre_append_ne_cons _ _ _ _ (by simp [Meta, KvItem]))
    · rw [hr] at hfront
      exact absurd hfront (itemPre_append_ne_cons _ _ _ _ (by simp [KvKeyIndex, KvItem]))
    · rw [hr, itemKeyRaw_pre] at hfront
      obtain ⟨hkk, hu⟩ := itemPre_append_inj k k' _ _ hk hk' hfront
      refine ⟨v, hv, ?_⟩
      rw [hr, hkk]
    · rw [hr] at hfront
      exact absurd hfront (itemPre_append_ne_cons _ _ _ _ (by simp [KvVersionMin, KvItem]))
    · rw [hr] at hfront
      exact absurd hfront (itemPre_append_ne_cons _ _ _ _ (by simp [KvVersionMax, KvItem]))
  · rintro ⟨v, hv, rfl⟩
    exact isItemOf_itemKeyRaw k v

/-- On a shaped raw key, membership in the scan range between two item
bounds of `k` says exactly that the key is an item of `k` whose version
lies between the two bound versions. -/
theorem inRange_item_iff (k : Bytes) (hk : k.length < 2 ^ 32) (r : Bytes) (hs : KeyShape r)
    (lov hiv : Nat) (hlo : lov < 2 ^ 32) (hhi : hiv < 2 ^ 32) :
    inRangeB (itemKeyRaw k lov) (itemKeyRaw k hiv) r = true
      ↔ ∃ v, lov ≤ v ∧ v ≤ hiv ∧ v < 2 ^ 32 ∧ r = itemKeyRaw k v := by
  constructor
  · intro h
    rw [inRangeB_eq_true, itemKeyRaw_pre, itemKeyRaw_pre] at h
    obtain ⟨h1, h2⟩ := h
    obtain ⟨u, rfl, hu1, hu2⟩ := cmpBytes_between (itemPre k) (toBE32 lov) (toBE32 hiv) r h1 h2
    rcases hs with ⟨k', hr⟩ | ⟨k', hr⟩ | ⟨k', v, hv, hk', hr⟩ | ⟨k', hr⟩ | ⟨k', hr⟩
    · exact absurd hr (itemPre_append_ne_cons _ _ _ _ (by simp [Meta, KvItem]))
    · exact absurd hr (itemPre_append_ne_cons _ _ _ _ (by simp [KvKeyIndex, KvItem]))
    · rw [itemKeyRaw_pre] at hr
      obtain ⟨hkk, hu⟩ := itemPre_append_inj k k' _ _ hk hk' hr
      subst hu
      refine ⟨v, ?_, ?_, hv, by rw [itemKeyRaw_pre, hkk]⟩
      · exact (toBE32_not_gt_iff lov v hlo hv).mp hu1
      · exact (toBE32_not_gt_iff v hiv hv hhi).mp hu2
    · exact absurd hr (itemPre_append_ne_cons _ _ _ _ (by simp [KvVersionMin, KvItem]))
    · exact absurd hr (itemPre_append_ne_cons _ _ _ _ (by simp [KvVersionMax, KvItem]))
  · rintro ⟨v, h1, h2, hv, rfl⟩
    rw [inRangeB_eq_true, itemKeyRaw_pre, itemKeyRaw_pre, itemKeyRaw_pre,
      cmpBytes_append_same, cmpBytes_append_same]
    exact ⟨(toBE32_not_gt_iff lov v hlo hv).mpr h1, (toBE32_not_gt_iff v hiv hv hhi).mpr h2⟩

end vkv

namespace vkv

/-! ### Main scan theorem for one key (claim C2) -/

theorem u32I_zero : u32I 0 = 0 := by
  rw [u32I]
  decide

theorem u32I_maxInt : u32I (2 ^ 63 - 1) = 2 ^ 32 - 1 := by
  rw [u32I]
  decide

/-- On a store reached by any sequence of `Put`s, the full-range scan of
key `k` selects exactly the item entries of `k`. -/
theorem versions_filter_items (ops : List Op) (hops : ∀ o ∈ ops, o.key.length < 2 ^ 32)
    (k : Bytes) (hk : k.length < 2 ^ 32) :
    Versions (applyTrace ops) k 0 (2 ^ 63 - 1) 0
      = ((applyTrace ops).filter (fun x => isItemOf k x.1)).map
          (fun x => ⟨[], x.2, (decodeKey x.1).2⟩) := by
  have hwf := applyTrace_WF ops hops
  rw [Versions_eq_filter _ _ _ _ hwf.1]
  congr 1
  apply List.filter_congr
  intro x hx
  have hs := hwf.2 x hx
  have h1 := inRange_item_iff k hk x.1 hs 0 (2 ^ 32 - 1) (by norm_num) (by norm_num)
  have h2 := isItemOf_shape k x.1 hk hs
  simp only [encodeKey, u32I_zero, u32I_maxInt]
  cases hb1 : inRangeB (itemKeyRaw k 0) (itemKeyRaw k (2 ^ 32 - 1)) x.1 with
  | true =>
    obtain ⟨v, -, -, hv, hr⟩ := h1.mp hb1
    exact (h2.mpr ⟨v, hv, hr⟩).symm
  | false =>
    cases hb2 : isItemOf k x.1 with
    | true =>
      obtain ⟨v, hv, hr⟩ := h2.mp hb2
      have : inRangeB (itemKeyRaw k 0) (itemKeyRaw k (2 ^ 32 - 1)) x.1 = true :=
        h1.mpr ⟨v, Nat.zero_le v, by omega, hv, hr⟩
      rw [hb1] at this
      cases this
    | false => rfl

theorem versions_scan_ascending (ops : List Op) (hops : ∀ o ∈ ops, o.key.length < 2 ^ 32)
    (k : Bytes) (hk : k.length < 2 ^ 32) :
    List.Pairwise (fun a b : KeyValue => a.Version < b.Version)
      (Versions (applyTrace ops) k 0 (2 ^ 63 - 1) 0) := by
  have hwf := applyTrace_WF ops hops
  rw [versions_filter_items ops hops k hk]
  apply List.pairwise_map.mpr
  have hpf : List.Pairwise entLt ((applyTrace ops).filter (fun x => isItemOf k x.1)) :=
    hwf.1.filter _
  refine List.Pairwise.imp_of_mem ?_ hpf
  intro a b ha hb hab
  have hab' : cmpBytes a.1 b.1 = .lt := hab
  have hsa := hwf.2 a (List.mem_of_mem_filter ha)
  have hsb := hwf.2 b (List.mem_of_mem_filter hb)
  have hpa : isItemOf k a.1 = true := by simpa using (List.mem_filter.mp ha).2
  have hpb : isItemOf k b.1 = true := by simpa using (List.mem_filter.mp hb).2
  obtain ⟨va, hva, hra⟩ := (isItemOf_shape k a.1 hk hsa).mp hpa
  obtain ⟨vb, hvb, hrb⟩ := (isItemOf_shape k b.1 hk hsb).mp hpb
  rw [hra, hrb, itemKeyRaw_pre, itemKeyRaw_pre, cmpBytes_append_same] at hab'
  have hv := (toBE32_lt_iff va vb hva hvb).mp hab'
  simp only [hra, hrb, decodeKey_itemKeyRaw k va hk hva, decodeKey_itemKeyRaw k vb hk hvb]
  exact_mod_cast hv

/-- C2: for any store built by successful Puts (all user keys of 32-bit
representable length), `Versions(k, 0, maxInt, 0)` returns exactly the
stored item entries of `k` — value and decoded version, no entry of any
other key, none missing — and its versions are strictly ascending. -/
theorem C2_versions_exact_ascending (ops : List Op)
    (hops : ∀ o ∈ ops, o.key.length < 2 ^ 32) (k : Bytes) (hk : k.length < 2 ^ 32) :
    Versions (applyTrace ops) k 0 (2 ^ 63 - 1) 0
      = ((applyTrace ops).filter (fun x => isItemOf k x.1)).map
          (fun x => ⟨[], x.2, (decodeKey x.1).2⟩)
    ∧ List.Pairwise (fun a b : KeyValue => a.Version < b.Version)
        (Versions (applyTrace ops) k 0 (2 ^ 63 - 1) 0) :=
  ⟨versions_filter_items ops hops k hk, versions_scan_ascending ops hops k hk⟩

theorem C2_witness :
    (∀ o ∈ [Op.mk [107] [118, 49] 100 0, Op.mk [107] [118, 50] 200 0,
        Op.mk [107] [118, 51] 150 0], o.key.length < 2 ^ 32)
    ∧ ([107] : Bytes).length < 2 ^ 32
    ∧ (Versions (applyTrace [Op.mk [107] [118, 49] 100 0, Op.mk [107] [118, 50] 200 0,
          Op.mk [107] [118, 51] 150 0]) [107] 0 (2 ^ 63 - 1) 0
        = ((applyTrace [Op.mk [107] [118, 49] 100 0, Op.mk [107] [118, 50] 200 0,
              Op.mk [107] [118, 51] 150 0]).filter (fun x => isItemOf [107] x.1)).map
            (fun x => ⟨[], x.2, (decodeKey x.1).2⟩)
      ∧ List.Pairwise (fun a b : KeyValue => a.Version < b.Version)
          (Versions (applyTrace [Op.mk [107] [118, 49] 100 0, Op.mk [107] [118, 50] 200 0,
            Op.mk [107] [118, 51] 150 0]) [107] 0 (2 ^ 63 - 1) 0)) :=
  ⟨by decide, by decide,
    C2_versions_exact_ascending _ (by decide) [107] (by decide)⟩

end vkv

namespace vkv

/-! ### Key enumeration over traces (claim C7) -/

theorem cmpBytes_nil_not_gt (u : Bytes) : cmpBytes [] u ≠ .gt := by
  cases u <;> intro h <;> cases h

theorem Put_pairwise (db : Store) (key value : Bytes) (version now : Int)
    (hp : List.Pairwise entLt db) : List.Pairwise entLt (Put db key value version now).1 := by
  obtain ⟨db3, hmt, heq⟩ := Put_store_spec db key value version now
  rw [heq]
  exact sset_pairwise _ _ _ (sset_pairwise _ _ _ (hmt.2.1 hp))

theorem runTrace_pairwise :
    ∀ (ops : List Op) (db : Store), List.Pairwise entLt db →
      List.Pairwise entLt (runTrace ops db) := by
  intro ops
  induction ops with
  | nil => intro db h; exact h
  | cons o rest ih => intro db h; exact ih _ (Put_pairwise _ _ _ _ _ h)

theorem applyTrace_pairwise (ops : List Op) : List.Pairwise entLt (applyTrace ops) := by
  rw [applyTrace_eq_run]
  exact runTrace_pairwise ops [] List.Pairwise.nil

/-- C7 (amended): `Keys(p, p ++ "\xff", 0)` on a store built by any
sequence of `Put`s contains a user key `k` exactly when `k` was written
and `k` extends `p` by a tail that is at most `"\xff"` in byte order;
written keys that properly extend `p ++ "\xff"` are missed. -/
theorem C7_keys_member (ops : List Op) (p k' : Bytes) :
    k' ∈ Keys (applyTrace ops) p (p ++ [255]) 0
      ↔ k' ∈ ops.map Op.key ∧ ∃ u, k' = p ++ u ∧ cmpBytes u [255] ≠ .gt := by
  have hp := applyTrace_pairwise ops
  rw [Keys_eq_filter _ _ _ hp]
  constructor
  · intro hmem
    obtain ⟨e, hef, hdrop⟩ := List.mem_map.mp hmem
    have hf := List.mem_filter.mp hef
    have hrange := inRangeB_eq_true.mp (by simpa using hf.2)
    have hlo : cmpBytes ([KvKeyIndex] ++ p) e.1 ≠ .gt := by
      simpa [encodeMeta] using hrange.1
    have hhi : cmpBytes e.1 ([KvKeyIndex] ++ (p ++ [255])) ≠ .gt := by
      simpa [encodeMeta] using hrange.2
    obtain ⟨u, heu, hu1, hu2⟩ := cmpBytes_between [KvKeyIndex] p (p ++ [255]) e.1 hlo hhi
    have hku : u = k' := by
      rw [← hdrop, heu]
      rfl
    subst hku
    have hwritten : u ∈ ops.map Op.key := by
      have hsg : sget (applyTrace ops) e.1 = some e.2 :=
        (mem_iff_sget _ _ _ hp).mp (by rw [← @Prod.mk.eta _ _ e] at hf ⊢; exact hf.1)
      rw [heu] at hsg
      have hidx := applyTrace_keyIndex ops u
      by_cases hw : u ∈ ops.map Op.key
      · exact hw
      · rw [if_neg hw] at hidx
        rw [show ([KvKeyIndex] ++ u : Bytes) = encodeMeta KvKeyIndex u from rfl] at hsg
        rw [hidx] at hsg
        cases hsg
    refine ⟨hwritten, ?_⟩
    have hplo : cmpBytes (p ++ ([] : Bytes)) u ≠ .gt := by
      simpa using hu1
    obtain ⟨w, hw, -, hw2⟩ := cmpBytes_between p [] [255] u hplo hu2
    exact ⟨w, hw, hw2⟩
  · rintro ⟨hwritten, u, rfl, hu⟩
    have hsg : sget (applyTrace ops) (encodeMeta KvKeyIndex (p ++ u)) = some [] := by
      rw [applyTrace_keyIndex, if_pos hwritten]
    have hmem : (encodeMeta KvKeyIndex (p ++ u), ([] : Bytes)) ∈ applyTrace ops :=
      (mem_iff_sget _ _ _ hp).mpr hsg
    apply List.mem_map.mpr
    refine ⟨(encodeMeta KvKeyIndex (p ++ u), []), ?_, rfl⟩
    apply List.mem_filter.mpr
    refine ⟨hmem, ?_⟩
    apply inRangeB_eq_true.mpr
    constructor
    · have : cmpBytes (encodeMeta KvKeyIndex p) (encodeMeta KvKeyIndex (p ++ u))
          = cmpBytes ([] : Bytes) u := by
        rw [show encodeMeta KvKeyIndex p = ([KvKeyIndex] ++ p) ++ [] from by
            simp [encodeMeta],
          show encodeMeta KvKeyIndex (p ++ u) = ([KvKeyIndex] ++ p) ++ u from by
            simp [encodeMeta],
          cmpBytes_append_same]
      rw [this]
      exact cmpBytes_nil_not_gt u
    · have : cmpBytes (encodeMeta KvKeyIndex (p ++ u)) (encodeMeta KvKeyIndex (p ++ [255]))
          = cmpBytes u [255] := by
        rw [show encodeMeta KvKeyIndex (p ++ u) = ([KvKeyIndex] ++ p) ++ u from by
            simp [encodeMeta],
          show encodeMeta KvKeyIndex (p ++ [255]) = ([KvKeyIndex] ++ p) ++ [255] from by
            simp [encodeMeta],
          cmpBytes_append_same]
      rw [this]
      exact hu

/-- C7 counterexample: the key `"a\xff\x00"` (bytes 97 255 0) is written
and starts with `p = "a"`, yet `Keys("a", "a\xff", 0)` misses it. -/
theorem C7_counterexample :
    ([97, 255, 0] : Bytes) ∈ ([Op.mk [97, 255, 0] [118] 1 0]).map Op.key
    ∧ ([97, 255, 0] : Bytes).take 1 = [97]
    ∧ Keys (applyTrace [Op.mk [97, 255, 0] [118] 1 0]) [97] ([97] ++ [255]) 0 = [] := by
  decide

end vkv

namespace vkv

/-! ### Failure atomicity of `Put` (claim C8) -/

theorem mem_iff_sget' (db : Store) (x : Bytes × Bytes) (hp : List.Pairwise entLt db) :
    x ∈ db ↔ sget db x.1 = some x.2 := by
  obtain ⟨a, b⟩ := x
  exact mem_iff_sget db a b hp

/-- A failing `putItemStep` whose key-existence write cannot fail has
not modified the store at all. -/
theorem putItemStep_fail (fs : Bytes → Bool) (key value : Bytes) (version : Int)
    (db : Store) (hfs : fs (encodeMeta KvKeyIndex key) = false)
    (h : (putItemStep fs key value version db).2 = none) :
    (putItemStep fs key value version db).1 = db := by
  simp only [putItemStep] at h ⊢
  by_cases h1 : fs (encodeKey key version) = true
  · rw [if_pos h1]
  · rw [if_neg h1] at h ⊢
    rw [if_neg (show ¬fs (encodeMeta KvKeyIndex key) = true by simp [hfs])] at h
    exact Option.noConfusion h

/-- A failing counter/item stage (existence write excluded) touches only
the per-key version counter. -/
theorem putCntStep_fail (fg fs : Bytes → Bool) (key value : Bytes) (version : Int)
    (db : Store) (hfs : fs (encodeMeta KvKeyIndex key) = false)
    (h : (putCntStep fg fs key value version db).2 = none) :
    MetaTouch key db (putCntStep fg fs key value version db).1 := by
  simp only [putCntStep] at h ⊢
  by_cases h1 : fg (encodeKey key version) = true
  · rw [if_pos h1]
    exact MetaTouch_refl key db
  · rw [if_neg h1] at h ⊢
    by_cases h2 : sget db (encodeKey key version) = none
    · rw [if_pos h2] at h ⊢
      by_cases h3 : fg (encodeMeta Meta (encodeMeta KvVersionCnt key)) = true
      · rw [if_pos h3]
        exact MetaTouch_refl key db
      · rw [if_neg h3] at h ⊢
        by_cases h4 : fs (encodeMeta Meta (encodeMeta KvVersionCnt key)) = true
        · rw [if_pos h4]
          exact MetaTouch_refl key db
        · rw [if_neg h4] at h ⊢
          rw [putItemStep_fail fs key value version _ hfs h]
          simp only [incrUint32, putUint32]
          exact MetaTouch_sset key db _ _ (Or.inr (Or.inr rfl))
    · rw [if_neg h2] at h ⊢
      rw [putItemStep_fail fs key value version db hfs h]
      exact MetaTouch_refl key db

set_option maxHeartbeats 1600000 in
/-- A `Put` that fails anywhere up to the item write — in particular in
the version-counter update — has only touched the three per-key counter
entries; the item namespace is untouched.  (The only exception is a
failure of the final key-existence write, excluded by `hfs`.) -/
theorem PutF_fail_metaTouch (fg fs : Bytes → Bool) (db : Store) (key value : Bytes)
    (version now : Int) (hfs : fs (encodeMeta KvKeyIndex key) = false)
    (hfail : (PutF fg fs db key value version now).2 = none) :
    MetaTouch key db (PutF fg fs db key value version now).1 := by
  simp only [PutF] at hfail ⊢
  split_ifs at hfail ⊢ <;>
    first
      | exact MetaTouch_refl key db
      | (refine MetaTouch_trans key db _ _ ?_
          (putCntStep_fail fg fs key value _ _ hfs hfail)
         try simp only [putUint32]
         repeat
           first
           | exact MetaTouch_refl key db
           | apply MetaTouch_sset_max
           | apply MetaTouch_sset_min)
      | (try simp only [putUint32]
         repeat
           first
           | exact MetaTouch_refl key db
           | apply MetaTouch_sset_max
           | apply MetaTouch_sset_min)

/-- C8 (amended): if `Put(k, v, t)` returns an error and the failing
backend operation is not the final key-existence write, then the item
namespace is unchanged: every point read of an item key and every
`Versions` scan see exactly the pre-call store, so the item at `(k, t)`
remains unobservable.  (A failure of the final existence write alone
leaves the already-performed item write visible; see the
counterexample.) -/
theorem C8_failed_put_invisible (fg fs : Bytes → Bool) (db : Store) (key value : Bytes)
    (version now : Int) (hsorted : List.Pairwise entLt db)
    (hfs : fs (encodeMeta KvKeyIndex key) = false)
    (hfail : (PutF fg fs db key value version now).2 = none) :
    (∀ k2 v2, sget (PutF fg fs db key value version now).1 (encodeKey k2 v2)
        = sget db (encodeKey k2 v2))
    ∧ ∀ k2 s e, Versions (PutF fg fs db key value version now).1 k2 s e 0
        = Versions db k2 s e 0 := by
  have hmt := PutF_fail_metaTouch fg fs db key value version now hfs hfail
  have hsorted' : List.Pairwise entLt (PutF fg fs db key value version now).1 :=
    hmt.2.1 hsorted
  have hitem : ∀ k2 (u : Bytes),
      sget (PutF fg fs db key value version now).1 (itemPre k2 ++ u)
        = sget db (itemPre k2 ++ u) := by
    intro k2 u
    apply hmt.1
    · exact itemPre_append_ne_cons _ _ _ _ (by simp [KvVersionMin, KvItem])
    · exact itemPre_append_ne_cons _ _ _ _ (by simp [KvVersionMax, KvItem])
    · exact itemPre_append_ne_cons _ _ _ _ (by simp [Meta, KvItem])
  constructor
  · intro k2 v2
    have := hitem k2 (toBE32 (u32I v2))
    rwa [← itemKeyRaw_pre, ← encodeKey] at this
  · intro k2 s e
    rw [Versions_eq_filter _ _ _ _ hsorted', Versions_eq_filter _ _ _ _ hsorted]
    congr 1
    apply sorted_ext _ _ (hsorted'.filter _) (hsorted.filter _)
    intro x
    simp only [List.mem_filter]
    have hshape : inRangeB (encodeKey k2 s) (encodeKey k2 e) x.1 = true →
        ∃ u, x.1 = itemPre k2 ++ u := by
      intro hr
      rw [inRangeB_eq_true, encodeKey, encodeKey, itemKeyRaw_pre, itemKeyRaw_pre] at hr
      obtain ⟨u, hxu, -, -⟩ :=
        cmpBytes_between (itemPre k2) (toBE32 (u32I s)) (toBE32 (u32I e)) x.1 hr.1 hr.2
      exact ⟨u, hxu⟩
    constructor
    · rintro ⟨hx, hr⟩
      obtain ⟨u, hxu⟩ := hshape hr
      refine ⟨?_, hr⟩
      apply (mem_iff_sget' db x hsorted).mpr
      rw [← (mem_iff_sget' _ x hsorted').mp hx, hxu, hitem]
    · rintro ⟨hx, hr⟩
      obtain ⟨u, hxu⟩ := hshape hr
      refine ⟨?_, hr⟩
      apply (mem_iff_sget' _ x hsorted').mpr
      rw [← (mem_iff_sget' db x hsorted).mp hx, hxu, hitem]

/-- C8 counterexample to the claim as stated: with a backend whose only
failing operation is the set of the key-existence marker, `Put("a","v",5)`
on a fresh store returns an error, yet the item at version 5 is already
observable via `Versions`. -/
theorem C8_counterexample :
    (PutF noFail (fun r => decide (r = ([2, 97] : Bytes))) [] [97] [118] 5 0).2 = none
    ∧ (Versions (PutF noFail (fun r => decide (r = ([2, 97] : Bytes))) [] [97] [118] 5 0).1
        [97] 0 (2 ^ 63 - 1) 0).map KeyValue.Version = [5] := by
  decide

theorem C8_witness :
    List.Pairwise entLt ([] : Store)
    ∧ (fun r => decide (r = ([1, 4, 97] : Bytes))) (encodeMeta KvKeyIndex [97]) = false
    ∧ (PutF noFail (fun r => decide (r = ([1, 4, 97] : Bytes))) [] [97] [118] 5 0).2 = none
    ∧ ((∀ k2 v2,
          sget (PutF noFail (fun r => decide (r = ([1, 4, 97] : Bytes))) [] [97] [118] 5 0).1
              (encodeKey k2 v2)
            = sget [] (encodeKey k2 v2))
        ∧ ∀ k2 s e,
            Versions (PutF noFail (fun r => decide (r = ([1, 4, 97] : Bytes)))
                [] [97] [118] 5 0).1 k2 s e 0
              = Versions [] k2 s e 0) :=
  ⟨List.Pairwise.nil, by decide, by decide,
    C8_failed_put_invisible _ _ _ _ _ _ _ List.Pairwise.nil (by decide) (by decide)⟩

end vkv

namespace vkv

/-! ### Returned KeyValue of a successful Put -/

theorem Put_snd (db : Store) (key value : Bytes) (version now : Int) :
    (Put db key value version now).2
      = some ⟨key, value, if version = -1 then now else version⟩ := by
  simp only [Put, PutF, putCntStep, putItemStep, noFail]
  simp only [Bool.false_eq_true, if_false, and_false, false_and, ite_false]
  split_ifs <;> rfl

/-! ### Concrete trace theorems for the truncation and limit bugs -/

/-- C1: after `Put("a", 5)` then `Put("a", 2^32+3)`, the stored min
counter is 5 and the max counter is 3, while the stored versions of
"a" decode to 3 and 5 — so `version_min ≤ every stored version` and
`version_max ≥ every stored version` both fail (the counters and the
item-key version suffix are 32-bit truncations). -/
theorem C1_counter_truncation :
    getUint32 (applyTrace [Op.mk [97] [118] 5 0, Op.mk [97] [119] (2 ^ 32 + 3) 0])
        (encodeMeta KvVersionMin [97]) = 5
    ∧ getUint32 (applyTrace [Op.mk [97] [118] 5 0, Op.mk [97] [119] (2 ^ 32 + 3) 0])
        (encodeMeta KvVersionMax [97]) = 3
    ∧ (Versions (applyTrace [Op.mk [97] [118] 5 0, Op.mk [97] [119] (2 ^ 32 + 3) 0])
          [97] 0 (2 ^ 63 - 1) 0).map KeyValue.Version = [3, 5]
    ∧ VersionCnt (applyTrace [Op.mk [97] [118] 5 0, Op.mk [97] [119] (2 ^ 32 + 3) 0]) [97]
        = 2 := by
  decide

/-- C5: with keys "a", "b", "ba", "c" written once each, and limit 2,
the scan of `Keys` returns three keys, not two (the guard `i > limit`
admits `limit + 1` rows); the same off-by-one shows in `Versions` with
limit 1 returning 2 rows. -/
theorem C5_limit_off_by_one :
    Keys (applyTrace [Op.mk [97] [118] 1 0, Op.mk [98] [118] 1 0,
        Op.mk [98, 97] [118] 1 0, Op.mk [99] [118] 1 0]) [] [255] 2
      = [[97], [98], [98, 97]]
    ∧ (Versions (applyTrace [Op.mk [107] [118, 49] 100 0, Op.mk [107] [118, 50] 200 0,
        Op.mk [107] [118, 51] 150 0]) [107] 0 (2 ^ 63 - 1) 1).length = 2 := by
  decide

/-- C6: after a completed `Put("a", v, 2^32)`, `Get("a", -1)` reports
version 0, which is far below the version `t = 2^32` that the caller
wrote — the read-after-write ordering guarantee fails for versions
beyond 32 bits. -/
theorem C6_get_latest_truncation :
    GetF noFail (applyTrace [Op.mk [97] [118] (2 ^ 32) 0]) [97] (-1)
      = some ⟨[97], [118], 0⟩
    ∧ ¬((2 ^ 32 : Int) ≤ 0) := by
  decide

/-! ### Get resolution (claims C3 and C10) -/

/-- C3 counterexample: for a key with `version_max = 0` (never written),
`Get(k, -1)` succeeds with an empty-value `KeyValue` — it does not
return a NotFound error. -/
theorem C3_counterexample :
    GetF noFail ([] : Store) [97] (-1) = some ⟨[97], [], 0⟩ := by
  decide

/-- C3 (amended): `Get(k, -1)` resolves the version to the stored
`version_max(k)`; when `k` was never written that counter is zero and
the call still succeeds, returning version 0 and the empty value
rather than NotFound. -/
theorem C3_get_latest_resolution (ops : List Op) (key : Bytes) :
    (GetF noFail (applyTrace ops) key (-1)).map KeyValue.Version
        = some ((getUint32 (applyTrace ops) (encodeMeta KvVersionMax key) : Int))
    ∧ (key ∉ ops.map Op.key →
        GetF noFail (applyTrace ops) key (-1) = some ⟨key, [], 0⟩) := by
  constructor
  · simp [GetF, noFail]
  · intro hnw
    obtain ⟨-, g2, -, -, g5⟩ := applyTrace_NotWritten ops key hnw
    have hmax : getUint32 (applyTrace ops) (encodeMeta KvVersionMax key) = 0 := by
      rw [getUint32, g2]
    have hitem : sget (applyTrace ops) (encodeKey key 0) = none := by
      rw [encodeKey, u32I_zero]
      exact g5 0
    simp [GetF, noFail, hmax, hitem]

theorem C3_amended_witness :
    ((GetF noFail (applyTrace []) [97] (-1)).map KeyValue.Version
        = some ((getUint32 (applyTrace []) (encodeMeta KvVersionMax [97]) : Int)))
    ∧ (([97] : Bytes) ∉ ([] : List Op).map Op.key)
    ∧ GetF noFail (applyTrace []) [97] (-1) = some ⟨[97], [], 0⟩ :=
  ⟨(C3_get_latest_resolution [] [97]).1, by decide,
    (C3_get_latest_resolution [] [97]).2 (by decide)⟩

/-- C10: the KV engine's `Get` never produces a NotFound error: against
a non-failing backend it always returns a `KeyValue` for the requested
key (any version, including -1), and when no item is stored at the
resolved version the `Value` is the empty string, indistinguishable
from a stored empty-value (tombstone) version. -/
theorem C10_get_never_notfound (db : Store) (key : Bytes) (version : Int) :
    ∃ kv, GetF noFail db key version = some kv ∧ kv.Key = key
      ∧ (sget db (encodeKey key kv.Version) = none → kv.Value = []) := by
  by_cases h : version = -1
  · refine ⟨⟨key,
      (sget db (encodeKey key ((getUint32 db (encodeMeta KvVersionMax key) : Int)))).getD [],
      (getUint32 db (encodeMeta KvVersionMax key) : Int)⟩, ?_, rfl, ?_⟩
    · simp [GetF, noFail, h]
    · intro hn
      simp only at hn ⊢
      rw [hn]
      rfl
  · refine ⟨⟨key, (sget db (encodeKey key version)).getD [], version⟩, ?_, rfl, ?_⟩
    · simp [GetF, noFail, h]
    · intro hn
      simp only at hn ⊢
      rw [hn]
      rfl

theorem C10_witness :
    ∃ kv, GetF noFail ([] : Store) [97] 5 = some kv ∧ kv.Key = [97]
      ∧ (sget ([] : Store) (encodeKey [97] kv.Version) = none → kv.Value = []) :=
  C10_get_never_notfound [] [97] 5

/-! ### Put with version 0 (claim C4) -/

/-- C4 counterexample: `Put(key, value, 0)` is not rejected — on a fresh
store it succeeds, stores an item at version 0, and that item is
returned by a scan. -/
theorem C4_counterexample :
    (Put [] [97] [118] 0 0).2 = some ⟨[97], [118], 0⟩
    ∧ sget (Put [] [97] [118] 0 0).1 (encodeKey [97] 0) = some [118]
    ∧ (Versions (Put [] [97] [118] 0 0).1 [97] 0 (2 ^ 63 - 1) 0).map KeyValue.Version
        = [0] := by
  decide

/-- C4 (amended): on any store, `Put(key, value, 0)` succeeds (no
InvalidArgument-style rejection exists in the code) and stores the
value at item version 0. -/
theorem C4_put_zero_accepted (db : Store) (key value : Bytes) (now : Int) :
    (Put db key value 0 now).2 = some ⟨key, value, 0⟩
    ∧ sget (Put db key value 0 now).1 (encodeKey key 0) = some value := by
  constructor
  · rw [Put_snd]
    simp
  · obtain ⟨db3, -, heq⟩ := Put_store_spec db key value 0 now
    rw [show (if (0 : Int) = -1 then now else 0) = 0 from by norm_num] at heq
    rw [heq,
      sget_sset_ne _ _ _ _ (by simp [encodeMeta, encodeKey, itemKeyRaw, KvKeyIndex, KvItem]),
      sget_sset_self]

/-! ### Item codec round-trip (claim C9) -/

/-- C9 counterexample: the version suffix is 4 bytes, so a 64-bit
version is truncated: encoding version `2^32` decodes to version 0. -/
theorem C9_counterexample :
    decodeKey (encodeKey [] (2 ^ 32)) = ([], 0) ∧ ((2 ^ 32 : Int) ≠ 0) := by
  decide

/-- C9 (amended): the codec round-trips exactly when the version fits
in 32 bits (and the key length is 32-bit representable); in general
only `version mod 2^32` is recovered. -/
theorem C9_roundtrip (k : Bytes) (hk : k.length < 2 ^ 32) (v : Int) (h0 : 0 ≤ v)
    (hv : v < 2 ^ 32) : decodeKey (encodeKey k v) = (k, v) := by
  have hu : u32I v = v.toNat := by
    rw [u32I, Int.emod_eq_of_lt h0 hv]
  rw [encodeKey, hu, decodeKey_itemKeyRaw k v.toNat hk (by omega), Int.toNat_of_nonneg h0]

theorem C9_witness :
    (([97] : Bytes).length < 2 ^ 32) ∧ ((0 : Int) ≤ 7) ∧ ((7 : Int) < 2 ^ 32)
    ∧ decodeKey (encodeKey [97] 7) = ([97], 7) :=
  ⟨by decide, by decide, by decide, C9_roundtrip [97] (by decide) 7 (by decide) (by decide)⟩

end vkv
